import Mathlib

/-!
Verification of the sella IRC core (`sella/irc.py`, `sella/peswrapper.py`).

Numeric code is embedded over exact rationals: vectors are `List ℚ`,
`np.linalg.norm` is `Rat.sqrt` of the sum of squares (exact on the
perfect-square values arising in the concrete runs below), and external
library routines (scipy `eigh`, the energy/gradient oracle, the Hessian
update kernel `sella.hessian_update.update_H`, the LSODA integrator) are
passed in as function parameters, since they are outside this repository.
`np.nextafter` is a floating-point-format operation with no exact-rational
counterpart; it is idealised as the identity on its first argument, so the
bracket-collapse test `np.nextafter(xilower, xiupper) >= xiupper` of
`rs_newton_irc` becomes `xilower ≥ xiupper` (in exact arithmetic there is
no representable value strictly between distinct rationals to step to).
-/

/-! ## Rational vectors and matrices -/

/-- Vectors are lists of rationals (a raveled numpy array). -/
abbrev Vec := List ℚ

/-- Matrices are lists of rows. -/
abbrev Mat := List Vec

/-- Pointwise sum (numpy `+` on equal-shape arrays). -/
def addV (a b : Vec) : Vec := List.zipWith (· + ·) a b

/-- Pointwise difference (numpy `-`). -/
def subV (a b : Vec) : Vec := List.zipWith (· - ·) a b

/-- Pointwise product (numpy `*`). -/
def mulV (a b : Vec) : Vec := List.zipWith (· * ·) a b

/-- Pointwise quotient (numpy `/`). -/
def divV (a b : Vec) : Vec := List.zipWith (· / ·) a b

/-- Scalar times vector. -/
def smulV (c : ℚ) (v : Vec) : Vec := v.map (c * ·)

/-- Pointwise negation (numpy unary `-`). -/
def negV (v : Vec) : Vec := v.map (fun t => -t)

/-- Dot product (numpy `@` on two vectors). -/
def dotV (a b : Vec) : ℚ := (List.zipWith (· * ·) a b).sum

/-- The all-zero vector of length `n`. -/
def zeroV (n : ℕ) : Vec := List.replicate n 0

/-- One shift-and-count step for the bit-length helper: divide the carried
value by `2 ^ k` when it is at least that large, adding `k` to the exponent
accumulator. -/
def blogStep (k : ℕ) (p : ℕ × ℕ) : ℕ × ℕ :=
  if 2 ^ k ≤ p.1 then (p.1 / 2 ^ k, p.2 + k) else p

/-- Floor of the base-2 logarithm for `n < 2 ^ 64`, by six shift-and-count
steps (shallow evaluation depth, unlike the recursive `Nat.log2`). -/
def blogSmall (n : ℕ) : ℕ :=
  (blogStep 1 (blogStep 2 (blogStep 4 (blogStep 8
    (blogStep 16 (blogStep 32 (n, 0))))))).2

/-- Floor of the base-2 logarithm, peeling 64 bits per recursion layer. -/
def blogAux : ℕ → ℕ → ℕ
  | 0, n => blogSmall n
  | f + 1, n =>
    if 2 ^ 64 ≤ n then 64 + blogAux f (n / 2 ^ 64) else blogSmall n

/-- Floor of the base-2 logarithm of a positive number. -/
def blog (n : ℕ) : ℕ := blogAux n n

/-- Fueled Heron (Newton) iteration for the integer square root, identical
to the recursion of `Nat.sqrt.iter` but with explicit fuel so that it is
structurally recursive and evaluates shallowly. -/
def heronAux (n : ℕ) : ℕ → ℕ → ℕ
  | 0, guess => guess
  | f + 1, guess =>
    let next := (guess + n / guess) / 2
    if next < guess then heronAux n f next else guess

/-- Integer square root: Heron iteration seeded just above `√n` using the
bit length.  Proved equal to `Nat.sqrt` in `isqrt_eq`; defined this way so
that the kernel can evaluate it on large concrete inputs. -/
def isqrt (n : ℕ) : ℕ :=
  if n ≤ 1 then n else heronAux n n (2 ^ (blog n / 2 + 1))

/-- Rational square root, mirroring Mathlib's `Rat.sqrt` (numerator and
denominator square roots); proved equal to it in `ratSqrt_eq_sqrt`. -/
def ratSqrt (q : ℚ) : ℚ := mkRat (isqrt q.num.toNat) (isqrt q.den)

theorem blogStep_spec (k n : ℕ) (p : ℕ × ℕ)
    (hA : 2 ^ p.2 * p.1 ≤ n) (hB : n < 2 ^ p.2 * (p.1 + 1))
    (h1 : 1 ≤ p.1) (hC : p.1 < 2 ^ (2 * k)) :
    2 ^ (blogStep k p).2 * (blogStep k p).1 ≤ n ∧
      n < 2 ^ (blogStep k p).2 * ((blogStep k p).1 + 1) ∧
      1 ≤ (blogStep k p).1 ∧ (blogStep k p).1 < 2 ^ k := by
  have hkpos : 0 < 2 ^ k := Nat.pos_pow_of_pos k (by norm_num)
  unfold blogStep
  by_cases h : 2 ^ k ≤ p.1
  · rw [if_pos h]
    refine ⟨?_, ?_, ?_, ?_⟩
    · calc 2 ^ (p.2 + k) * (p.1 / 2 ^ k) = 2 ^ p.2 * (2 ^ k * (p.1 / 2 ^ k)) := by
            rw [pow_add, Nat.mul_assoc]
      _ ≤ 2 ^ p.2 * p.1 := Nat.mul_le_mul_left _ (Nat.mul_div_le _ _)
      _ ≤ n := hA
    · have hd : p.1 + 1 ≤ 2 ^ k * (p.1 / 2 ^ k + 1) := by
        have := Nat.div_add_mod p.1 (2 ^ k)
        have := Nat.mod_lt p.1 hkpos
        nlinarith
      calc n < 2 ^ p.2 * (p.1 + 1) := hB
      _ ≤ 2 ^ p.2 * (2 ^ k * (p.1 / 2 ^ k + 1)) := Nat.mul_le_mul_left _ hd
      _ = 2 ^ (p.2 + k) * (p.1 / 2 ^ k + 1) := by rw [pow_add, Nat.mul_assoc]
    · exact (Nat.one_le_div_iff hkpos).mpr h
    · rw [Nat.div_lt_iff_lt_mul hkpos]
      calc p.1 < 2 ^ (2 * k) := hC
      _ = 2 ^ k * 2 ^ k := by rw [two_mul, pow_add]
  · rw [if_neg h]
    exact ⟨hA, hB, h1, not_le.mp h⟩

theorem blogSmall_spec (n : ℕ) (h1 : 1 ≤ n) (h2 : n < 2 ^ 64) :
    2 ^ blogSmall n ≤ n ∧ n < 2 ^ (blogSmall n + 1) := by
  have s32 := blogStep_spec 32 n (n, 0) (by simpa using le_refl n)
    (by simpa using Nat.lt_succ_self n) h1 (by simpa using h2)
  have s16 := blogStep_spec 16 n _ s32.1 s32.2.1 s32.2.2.1
    (by simpa [two_mul] using s32.2.2.2)
  have s8 := blogStep_spec 8 n _ s16.1 s16.2.1 s16.2.2.1
    (by simpa [two_mul] using s16.2.2.2)
  have s4 := blogStep_spec 4 n _ s8.1 s8.2.1 s8.2.2.1
    (by simpa [two_mul] using s8.2.2.2)
  have s2 := blogStep_spec 2 n _ s4.1 s4.2.1 s4.2.2.1
    (by simpa [two_mul] using s4.2.2.2)
  have s1 := blogStep_spec 1 n _ s2.1 s2.2.1 s2.2.2.1
    (by simpa [two_mul] using s2.2.2.2)
  set q := blogStep 1 (blogStep 2 (blogStep 4 (blogStep 8
    (blogStep 16 (blogStep 32 (n, 0)))))) with hq
  have hone : q.1 = 1 := by
    have := s1.2.2.1
    have := s1.2.2.2
    omega
  have hgoal1 : 2 ^ q.2 ≤ n := by
    have := s1.1
    rw [hone] at this
    simpa using this
  have hgoal2 : n < 2 ^ (q.2 + 1) := by
    have := s1.2.1
    rw [hone] at this
    calc n < 2 ^ q.2 * 2 := this
    _ = 2 ^ (q.2 + 1) := by rw [pow_succ]
  exact ⟨hgoal1, hgoal2⟩

theorem blogAux_spec : ∀ fuel n, 1 ≤ n → n / 2 ^ 64 ≤ fuel →
    2 ^ blogAux fuel n ≤ n ∧ n < 2 ^ (blogAux fuel n + 1) := by
  intro fuel
  induction fuel with
  | zero =>
    intro n h1 hf
    have : n < 2 ^ 64 := by omega
    exact blogSmall_spec n h1 this
  | succ f ih =>
    intro n h1 hf
    unfold blogAux
    by_cases hbig : 2 ^ 64 ≤ n
    · rw [if_pos hbig]
      have h1' : 1 ≤ n / 2 ^ 64 := (Nat.one_le_div_iff (by norm_num)).mpr hbig
      have hf' : n / 2 ^ 64 / 2 ^ 64 ≤ f := by
        have := Nat.div_le_div_right (c := 2 ^ 64) hf
        have h2 : f + 1 ≤ 2 ^ 64 * (f + 1) := Nat.le_mul_of_pos_left _ (by norm_num)
        omega
      obtain ⟨hlo, hhi⟩ := ih (n / 2 ^ 64) h1' hf'
      constructor
      · calc 2 ^ (64 + blogAux f (n / 2 ^ 64)) =
              2 ^ 64 * 2 ^ blogAux f (n / 2 ^ 64) := by rw [pow_add]
        _ ≤ 2 ^ 64 * (n / 2 ^ 64) := Nat.mul_le_mul_left _ hlo
        _ ≤ n := Nat.mul_div_le n (2 ^ 64)
      · have : n < 2 ^ 64 * (n / 2 ^ 64) + 2 ^ 64 := by
          have := Nat.div_add_mod n (2 ^ 64)
          have := Nat.mod_lt n (show 0 < 2 ^ 64 by norm_num)
          omega
        calc n < 2 ^ 64 * (n / 2 ^ 64 + 1) := by omega
        _ ≤ 2 ^ 64 * 2 ^ (blogAux f (n / 2 ^ 64) + 1) := Nat.mul_le_mul_left _ hhi
        _ = 2 ^ (64 + blogAux f (n / 2 ^ 64) + 1) := by
              rw [← pow_add, Nat.add_assoc]
    · rw [if_neg hbig]
      exact blogSmall_spec n h1 (by omega)

theorem blog_spec (n : ℕ) (h1 : 1 ≤ n) :
    2 ^ blog n ≤ n ∧ n < 2 ^ (blog n + 1) := by
  refine blogAux_spec n n h1 ?_
  exact le_trans (Nat.div_le_self _ _) (le_refl n)

theorem heronAux_eq (n : ℕ) : ∀ fuel guess, guess ≤ fuel →
    heronAux n fuel guess = Nat.sqrt.iter n guess := by
  intro fuel
  induction fuel with
  | zero =>
    intro guess hg
    have : guess = 0 := by omega
    subst this
    rw [heronAux, Nat.sqrt.iter]
    norm_num
  | succ f ih =>
    intro guess hg
    rw [heronAux, Nat.sqrt.iter]
    by_cases h : (guess + n / guess) / 2 < guess
    · rw [dif_pos h, if_pos h]
      exact ih _ (by omega)
    · rw [dif_neg h, if_neg h]

theorem isqrt_eq (n : ℕ) : isqrt n = Nat.sqrt n := by
  unfold isqrt
  by_cases hsmall : n ≤ 1
  · rw [if_pos hsmall]
    interval_cases n
    · simp [Nat.sqrt]
    · rw [Nat.sqrt]
      norm_num
  · rw [if_neg hsmall]
    have h1 : 1 ≤ n := by omega
    obtain ⟨hlo, hhi⟩ := blog_spec n h1
    have hb1 : 1 ≤ blog n := by
      by_contra hb
      push_neg at hb
      interval_cases hbv : blog n <;> omega
    -- the seed dominates the square root and fits inside the fuel
    have hseed_le : 2 ^ (blog n / 2 + 1) ≤ n := by
      rcases Nat.lt_or_ge (blog n) 2 with hb2 | hb2
      · have : blog n = 1 := by omega
        rw [this]
        norm_num
        omega
      · calc 2 ^ (blog n / 2 + 1) ≤ 2 ^ blog n :=
              Nat.pow_le_pow_right (by norm_num) (by omega)
        _ ≤ n := hlo
    rw [heronAux_eq n n _ hseed_le]
    -- the seed bracket `n < (seed + 1) ^ 2` needed by `lt_iter_succ_sq`
    have hbracket : n < (2 ^ (blog n / 2 + 1) + 1) * (2 ^ (blog n / 2 + 1) + 1) := by
      have hsq : 2 ^ (blog n + 1) ≤ 2 ^ (blog n / 2 + 1) * 2 ^ (blog n / 2 + 1) := by
        rw [← pow_add]
        exact Nat.pow_le_pow_right (by norm_num) (by omega)
      nlinarith [hhi, Nat.pos_pow_of_pos (blog n / 2 + 1) (show 0 < 2 by norm_num)]
    have hle := Nat.sqrt.iter_sq_le n (2 ^ (blog n / 2 + 1))
    have hlt := Nat.sqrt.lt_iter_succ_sq n (2 ^ (blog n / 2 + 1)) hbracket
    refine le_antisymm ?_ ?_
    · exact Nat.le_sqrt.mpr hle
    · have : Nat.sqrt n < Nat.sqrt.iter n (2 ^ (blog n / 2 + 1)) + 1 := by
        rw [Nat.sqrt_lt']
        calc n < (Nat.sqrt.iter n (2 ^ (blog n / 2 + 1)) + 1) *
                (Nat.sqrt.iter n (2 ^ (blog n / 2 + 1)) + 1) := hlt
        _ = (Nat.sqrt.iter n (2 ^ (blog n / 2 + 1)) + 1) ^ 2 := by ring
      omega

theorem ratSqrt_eq_sqrt (q : ℚ) : ratSqrt q = Rat.sqrt q := by
  have hint : Int.sqrt q.num = (Nat.sqrt q.num.toNat : ℤ) := rfl
  rw [ratSqrt, Rat.sqrt, isqrt_eq, isqrt_eq, hint]

/-- Euclidean norm, `np.linalg.norm`, over exact rationals.  `ratSqrt` is
`Rat.sqrt` (see `ratSqrt_eq_sqrt`) and is exact whenever the sum of squares
is a square of a rational, which holds in every concrete evaluation
below. -/
def ratNorm (v : Vec) : ℚ := ratSqrt (dotV v v)

/-- Linear combination `cols @ c` of column vectors (numpy `V @ c` where the
columns of `V` are `cols`); `n` is the ambient dimension, used for the empty
combination (numpy yields the zero vector of the column length). -/
def lincomb (n : ℕ) (cols : List Vec) (c : List ℚ) : Vec :=
  (List.zipWith smulV c cols).foldr addV (zeroV n)

/-- Matrix transpose (list-of-rows to list-of-rows). -/
def transposeM (A : Mat) : Mat :=
  (List.range (A.headD []).length).map (fun j => A.map (fun r => r.getD j 0))

/-- Matrix–vector product (rows dotted with the vector). -/
def matVecM (A : Mat) (v : Vec) : Vec := A.map (fun r => dotV r v)

/-- Matrix–matrix product `A @ B`. -/
def matMulM (A B : Mat) : Mat :=
  let Bt := transposeM B
  A.map (fun r => Bt.map (fun c => dotV r c))

/-- Diagonal matrix from a vector, `np.diag`. -/
def diagM (d : List ℚ) : Mat :=
  (List.range d.length).map (fun i =>
    (List.range d.length).map (fun j => if i = j then d.getD i 0 else 0))

/-- Outer product `np.outer`. -/
def outerM (a b : Vec) : Mat := a.map (fun ai => b.map (fun bj => ai * bj))

/-- Elementwise matrix quotient (numpy `/` on equal-shape matrices). -/
def elemDivM (A B : Mat) : Mat := List.zipWith divV A B

/-- The `1e-8` eigenvalue-magnitude cutoff of `rs_newton_irc`. -/
def tolSmall : ℚ := 1 / 100000000

/-- The `1e-14` relative convergence tolerance of `rs_newton_irc`. -/
def tolConv : ℚ := 1 / 100000000000000

/-- Idealisation of `np.nextafter` over exact rationals: with no finite
representation grid there is no distinct adjacent value, so the "next value
after `a` toward `b`" is `a` itself.  Consequently the source's bracket
collapse test `np.nextafter(xilower, xiupper) >= xiupper` reads
`xilower ≥ xiupper`. -/
def nextafterQ (a _b : ℚ) : ℚ := a

/-! ## `rs_newton_irc` (sella/irc.py lines 11-75)

The function's first step feeds the mass-weighted Hessian to scipy's
`eigh` (an external library routine); the embedding therefore starts from
the eigenvalue list `Lraw` and the list of eigenvector columns `colsRaw`
returned by `eigh`, and `rsNewtonPes` below reconstructs the wrapper that
builds `Hmw` and calls the `eigh` oracle. -/

/-- Context of the shift root-find loop: quantities fixed once the
eigenpair filtering and mass-weighting are done (lines 20-31). -/
structure NewtonCtx where
  n : ℕ
  cols : List Vec
  L : List ℚ
  Vg : List ℚ
  Vd1 : List ℚ
  d1mw : Vec
  dx : ℚ
deriving DecidableEq

/-- Mutable scalars of the root-find loop (lines 40-41 and the updates). -/
structure NewtonSt where
  xi : ℚ
  xilower : ℚ
  xiupper : Option ℚ
deriving DecidableEq

/-- Line 44: `epsmw = -vecs @ ((Vg + xi * Vd1) / (L + xi))`. -/
def shiftedEpsMw (c : NewtonCtx) (xi : ℚ) : Vec :=
  negV (lincomb c.n c.cols (divV (addV c.Vg (smulV xi c.Vd1)) (c.L.map (· + xi))))

/-- Line 45: `d2mw = d1mw + epsmw`. -/
def d2mwAt (c : NewtonCtx) (xi : ℚ) : Vec := addV c.d1mw (shiftedEpsMw c xi)

/-- Line 46: `d2mw_mag = np.linalg.norm(d2mw)`. -/
def d2magAt (c : NewtonCtx) (xi : ℚ) : ℚ := ratNorm (d2mwAt c xi)

/-- Line 48: the convergence test `abs(d2mw_mag - dx) < 1e-14 * dx`. -/
def convAt (c : NewtonCtx) (xi : ℚ) : Prop := |d2magAt c xi - c.dx| < tolConv * c.dx

instance (c : NewtonCtx) (xi : ℚ) : Decidable (convAt c xi) := by
  unfold convAt; infer_instance

/-- Line 50: `depsmw = -vecs @ (Vd1/(L+xi) - (Vg + xi*Vd1)/(L+xi)**2)`. -/
def depsMwAt (c : NewtonCtx) (xi : ℚ) : Vec :=
  negV (lincomb c.n c.cols
    (subV (divV c.Vd1 (c.L.map (· + xi)))
          (divV (addV c.Vg (smulV xi c.Vd1)) (c.L.map (fun l => (l + xi) ^ 2)))))

/-- Lines 51-52: the Newton proposal `dxi = (dx - d2mw_mag) / dd2mw_mag`
with `dd2mw_mag = (d2mw @ depsmw) / d2mw_mag`. -/
def dxiAt (c : NewtonCtx) (xi : ℚ) : ℚ :=
  (c.dx - d2magAt c xi) / (dotV (d2mwAt c xi) (depsMwAt c xi) / d2magAt c xi)

/-- Lines 54-57: bracket update from the sign of `dxi`. -/
def bracketUpdate (st : NewtonSt) (dxi : ℚ) : NewtonSt :=
  if dxi < 0 then { st with xiupper := some st.xi }
  else if 0 < dxi then { st with xilower := st.xi }
  else st

/-- Line 59: the bracket-collapse test (see `nextafterQ`). -/
def collapseAt (st : NewtonSt) : Prop :=
  match st.xiupper with
  | some u => nextafterQ st.xilower u ≥ u
  | none => False

instance (st : NewtonSt) : Decidable (collapseAt st) := by
  unfold collapseAt; cases st.xiupper <;> infer_instance

/-- The test `xiupper is not None and xi1 >= xiupper` of line 64. -/
def hitUpper (up : Option ℚ) (x : ℚ) : Bool :=
  match up with
  | some u => decide (x ≥ u)
  | none => false

/-- Lines 62-70: the safeguarded update of `xi` (Newton proposal, doubling
while no upper bracket exists, bisection otherwise). -/
def xiNext (st : NewtonSt) (dxi : ℚ) : ℚ :=
  let xi1 := st.xi + dxi
  if xi1 ≤ st.xilower ∨ hitUpper st.xiupper xi1 = true then
    match st.xiupper with
    | none => st.xi + (st.xi - st.xilower)
    | some u => (u + st.xilower) / 2
  else xi1

/-- One full non-breaking iteration of the loop body (lines 44-70). -/
def newtonStep (c : NewtonCtx) (st : NewtonSt) : NewtonSt :=
  let dxi := dxiAt c st.xi
  let st' := bracketUpdate st dxi
  { st' with xi := xiNext st' dxi }

/-- The `for _ in range(100) ... else: raise` loop (lines 43-72), with the
iteration budget as fuel; exhausting it is the `RuntimeError`. -/
def newtonLoop (c : NewtonCtx) : ℕ → NewtonSt → Except String (Vec × ℚ)
  | 0, _ => .error "IRC Newton step failed!"
  | fuel + 1, st =>
    if convAt c st.xi then .ok (shiftedEpsMw c st.xi, st.xi)
    else
      let st' := bracketUpdate st (dxiAt c st.xi)
      if collapseAt st' then .ok (shiftedEpsMw c st.xi, st.xi)
      else newtonLoop c fuel (newtonStep c st)

/-- Lines 20-31: filter out near-zero modes, take absolute eigenvalues,
mass-weight, and project; packaged as the loop context. -/
def mkNewtonCtx (Lraw : List ℚ) (colsRaw : List Vec) (sqrtm g d1 : Vec) (dx : ℚ) :
    NewtonCtx :=
  let retained := (Lraw.zip colsRaw).filter (fun p => decide (tolSmall < |p.1|))
  let L := retained.map (fun p => |p.1|)
  let cols := retained.map (fun p => p.2)
  let gmw := divV g sqrtm
  let d1mw := mulV d1 sqrtm
  { n := sqrtm.length
    cols := cols
    L := L
    Vg := cols.map (fun col => dotV col gmw)
    Vd1 := cols.map (fun col => dotV col d1mw)
    d1mw := d1mw
    dx := dx }

/-- Line 33: the unshifted candidate `epsmw = -vecs @ (Vg / L)`
(mass-weighted). -/
def unshiftedEpsMw (c : NewtonCtx) : Vec := negV (lincomb c.n c.cols (divV c.Vg c.L))

/-- Line 35: the norm of `d1mw + epsmw` for the unshifted candidate. -/
def unshiftedMag (c : NewtonCtx) : ℚ := ratNorm (addV c.d1mw (unshiftedEpsMw c))

/-- `rs_newton_irc` (sella/irc.py lines 11-75) from the output
`(Lraw, colsRaw)` of the external `eigh` call onward.  Returns
`(eps, xi, bound_clip)` on success; `.error` models the `RuntimeError`
raised when the root-find does not break within 100 iterations. -/
def rs_newton_irc (Lraw : List ℚ) (colsRaw : List Vec) (sqrtm g d1 : Vec)
    (dx xi : ℚ) : Except String (Vec × ℚ × Bool) :=
  let c := mkNewtonCtx Lraw colsRaw sqrtm g d1 dx
  if unshiftedMag c < dx then .ok (divV (unshiftedEpsMw c) sqrtm, xi, false)
  else
    (newtonLoop c 100 ⟨xi, 0, none⟩).map
      (fun p => (divV p.1 sqrtm, p.2, true))

/-! ## Analysis of the shift root-find loop -/

/-- Decidable equality for `Except` results (used in concrete evaluations). -/
instance exceptDecEq {ε α : Type} [DecidableEq ε] [DecidableEq α] :
    DecidableEq (Except ε α)
  | .error e, .error f =>
    if h : e = f then isTrue (by rw [h]) else
      isFalse (by intro hc; cases hc; exact h rfl)
  | .error _, .ok _ => isFalse (by intro h; cases h)
  | .ok _, .error _ => isFalse (by intro h; cases h)
  | .ok a, .ok b =>
    if h : a = b then isTrue (by rw [h]) else
      isFalse (by intro hc; cases hc; exact h rfl)

/-- Invariant of the root-find loop state: the lower bracket is
nonnegative, `xi` sits strictly above it, and strictly below the upper
bracket when one exists. -/
def NInv (st : NewtonSt) : Prop :=
  0 ≤ st.xilower ∧ st.xilower < st.xi ∧
    ∀ u, st.xiupper = some u → st.xilower < u ∧ st.xi < u

/-- In exact arithmetic the bracket never collapses: the collapse test of
line 59 is unreachable from an invariant-satisfying state. -/
theorem collapse_false (st : NewtonSt) (dxi : ℚ) (h : NInv st) :
    ¬ collapseAt (bracketUpdate st dxi) := by
  obtain ⟨h0, hlt, hup⟩ := h
  unfold collapseAt bracketUpdate nextafterQ
  split_ifs with h1 h2
  · simpa using not_le.mpr hlt
  · cases hu : st.xiupper with
    | none => simp [hu]
    | some u => simpa [hu] using not_le.mpr (hup u hu).2
  · cases hu : st.xiupper with
    | none => simp [hu]
    | some u => simpa [hu] using not_le.mpr (hup u hu).1

/-- The loop invariant is preserved by one non-breaking iteration. -/
theorem NInv_step (c : NewtonCtx) (st : NewtonSt) (h : NInv st) :
    NInv (newtonStep c st) := by
  obtain ⟨h0, hlt, hup⟩ := h
  have hxi0 : 0 ≤ st.xi := le_of_lt (lt_of_le_of_lt h0 hlt)
  have hstep : newtonStep c st =
      { xi := xiNext (bracketUpdate st (dxiAt c st.xi)) (dxiAt c st.xi),
        xilower := (bracketUpdate st (dxiAt c st.xi)).xilower,
        xiupper := (bracketUpdate st (dxiAt c st.xi)).xiupper } := rfl
  rw [hstep]
  rcases lt_trichotomy (dxiAt c st.xi) 0 with hd | hd | hd
  · have hb : bracketUpdate st (dxiAt c st.xi) =
        ⟨st.xi, st.xilower, some st.xi⟩ := by
      unfold bracketUpdate; rw [if_pos hd]
    rw [hb]
    unfold xiNext
    by_cases hle : st.xi + dxiAt c st.xi ≤ st.xilower
    · rw [if_pos (Or.inl hle)]
      refine ⟨h0, by dsimp only; linarith, ?_⟩
      rintro u hu
      injection hu with hu
      subst hu
      exact ⟨hlt, by dsimp only; linarith⟩
    · have hcond : ¬ (st.xi + dxiAt c st.xi ≤ st.xilower ∨
          hitUpper (some st.xi) (st.xi + dxiAt c st.xi) = true) := by
        rintro (hc | hc)
        · exact hle hc
        · simp only [hitUpper, decide_eq_true_eq, ge_iff_le] at hc
          linarith
      rw [if_neg hcond]
      refine ⟨h0, by dsimp only; linarith [not_le.mp hle], ?_⟩
      rintro u hu
      injection hu with hu
      subst hu
      exact ⟨hlt, by dsimp only; linarith⟩
  · have hb : bracketUpdate st (dxiAt c st.xi) = st := by
      unfold bracketUpdate
      rw [if_neg (by rw [hd]; exact lt_irrefl 0), if_neg (by rw [hd]; exact lt_irrefl 0)]
    rw [hb]
    have hcond : ¬ (st.xi + dxiAt c st.xi ≤ st.xilower ∨
        hitUpper st.xiupper (st.xi + dxiAt c st.xi) = true) := by
      rintro (hc | hc)
      · rw [hd, add_zero] at hc; exact absurd hc (not_le.mpr hlt)
      · cases hu : st.xiupper with
        | none => rw [hu] at hc; simp [hitUpper] at hc
        | some u =>
          rw [hu] at hc
          simp only [hitUpper, decide_eq_true_eq, ge_iff_le] at hc
          rw [hd, add_zero] at hc
          exact absurd hc (not_le.mpr (hup u hu).2)
    unfold xiNext
    rw [if_neg hcond]
    exact ⟨h0, by dsimp only; linarith, fun u hu =>
      ⟨(hup u hu).1, by have := (hup u hu).2; dsimp only; linarith⟩⟩
  · have hb : bracketUpdate st (dxiAt c st.xi) =
        ⟨st.xi, st.xi, st.xiupper⟩ := by
      unfold bracketUpdate
      rw [if_neg (by linarith), if_pos hd]
    rw [hb]
    unfold xiNext
    cases hu : st.xiupper with
    | none =>
      have hcond : ¬ (st.xi + dxiAt c st.xi ≤ st.xi ∨
          hitUpper none (st.xi + dxiAt c st.xi) = true) := by
        rintro (hc | hc)
        · linarith
        · simp [hitUpper] at hc
      rw [if_neg (by simpa using hcond)]
      refine ⟨hxi0, by dsimp only; linarith, ?_⟩
      rintro u hu'
      exact absurd hu' (by simp)
    | some u =>
      obtain ⟨hu1, hu2⟩ := hup u hu
      by_cases hbig : st.xi + dxiAt c st.xi ≥ u
      · rw [if_pos (Or.inr (by simp only [hitUpper, decide_eq_true_eq]; exact hbig))]
        refine ⟨hxi0, by dsimp only; linarith, ?_⟩
        rintro v hv
        injection hv with hv
        subst hv
        exact ⟨hu2, by dsimp only; linarith⟩
      · have hcond : ¬ (st.xi + dxiAt c st.xi ≤ st.xi ∨
            hitUpper (some u) (st.xi + dxiAt c st.xi) = true) := by
          rintro (hc | hc)
          · linarith
          · simp only [hitUpper, decide_eq_true_eq, ge_iff_le] at hc
            exact hbig hc
        rw [if_neg (by simpa using hcond)]
        refine ⟨hxi0, by dsimp only; linarith, ?_⟩
        rintro v hv
        injection hv with hv
        subst hv
        exact ⟨hu2, lt_of_not_ge hbig⟩

/-- Any successful exit of the root-find loop (from an invariant state)
returns a strictly positive `xi`, the shifted step formula evaluated at
that `xi`, and a step norm within the convergence tolerance. -/
theorem newtonLoop_ok (c : NewtonCtx) (e : Vec) (xi' : ℚ) :
    ∀ fuel st, NInv st → newtonLoop c fuel st = .ok (e, xi') →
      0 < xi' ∧ e = shiftedEpsMw c xi' ∧
        |d2magAt c xi' - c.dx| < tolConv * c.dx := by
  intro fuel
  induction fuel with
  | zero => intro st _ hok; cases hok
  | succ f ih =>
    intro st hinv hok
    simp only [newtonLoop] at hok
    by_cases hc : convAt c st.xi
    · rw [if_pos hc] at hok
      simp only [Except.ok.injEq, Prod.mk.injEq] at hok
      obtain ⟨he, hx⟩ := hok
      subst hx
      subst he
      exact ⟨lt_of_le_of_lt hinv.1 hinv.2.1, rfl, hc⟩
    · rw [if_neg hc, if_neg (collapse_false st (dxiAt c st.xi) hinv)] at hok
      exact ih (newtonStep c st) (NInv_step c st hinv) hok

/-- The loop fails (with the `RuntimeError` message) exactly when no state
reached within the iteration budget satisfies the convergence criterion. -/
theorem newtonLoop_error_iff (c : NewtonCtx) :
    ∀ fuel st, NInv st →
      (newtonLoop c fuel st = .error "IRC Newton step failed!" ↔
        ∀ k < fuel, ¬ convAt c ((newtonStep c)^[k] st).xi) := by
  intro fuel
  induction fuel with
  | zero =>
    intro st _
    exact ⟨fun _ k hk => absurd hk (Nat.not_lt_zero k), fun _ => rfl⟩
  | succ f ih =>
    intro st hinv
    simp only [newtonLoop]
    by_cases hc : convAt c st.xi
    · rw [if_pos hc]
      refine iff_of_false (by simp) ?_
      intro hall
      exact (hall 0 (Nat.succ_pos f)) (by simpa [Function.iterate_zero_apply] using hc)
    · rw [if_neg hc, if_neg (collapse_false st (dxiAt c st.xi) hinv)]
      refine (ih (newtonStep c st) (NInv_step c st hinv)).trans ?_
      constructor
      · intro hall k hk
        cases k with
        | zero => simpa [Function.iterate_zero_apply] using hc
        | succ j =>
          rw [Function.iterate_succ_apply]
          exact hall j (by omega)
      · intro hall k hk
        rw [← Function.iterate_succ_apply]
        exact hall (k + 1) (by omega)

/-- Pointwise identity `(d + e / s) * s = d * s + e`, valid when `s` has no
zero entry (the mass-weighting factors are positive in every call). -/
theorem mulV_addV_divV (d e s : Vec) (hs : ∀ x ∈ s, x ≠ 0) :
    mulV (addV d (divV e s)) s = addV (mulV d s) e := by
  induction d generalizing e s with
  | nil => simp [mulV, addV, divV]
  | cons a d ih =>
    cases e with
    | nil => simp [mulV, addV, divV]
    | cons b e =>
      cases s with
      | nil => simp [mulV, addV, divV]
      | cons c s =>
        have hc : c ≠ 0 := hs c (List.mem_cons_self c s)
        simp only [mulV, addV, divV, List.zipWith_cons_cons]
        congr 1
        · rw [add_mul, div_mul_cancel₀ _ hc]
        · exact ih e s (fun x hx => hs x (List.mem_cons_of_mem _ hx))

/-- C1 (amended): the unshifted Newton step, with `bound_clip = False` and
`xi` passed through unchanged, is returned if and only if the mass-weighted
norm of `d1 + eps` is STRICTLY below `dx` (the source's line 36 tests
`d2mw_mag < dx`, not `≤`). -/
theorem rs_newton_unshifted_iff (Lraw : List ℚ) (colsRaw : List Vec)
    (sqrtm g d1 : Vec) (dx xi : ℚ) :
    rs_newton_irc Lraw colsRaw sqrtm g d1 dx xi =
        .ok (divV (unshiftedEpsMw (mkNewtonCtx Lraw colsRaw sqrtm g d1 dx)) sqrtm,
          xi, false) ↔
      unshiftedMag (mkNewtonCtx Lraw colsRaw sqrtm g d1 dx) < dx := by
  unfold rs_newton_irc
  by_cases h : unshiftedMag (mkNewtonCtx Lraw colsRaw sqrtm g d1 dx) < dx
  · simp [if_pos h, h]
  · rw [if_neg h]
    refine iff_of_false ?_ h
    cases hloop : newtonLoop (mkNewtonCtx Lraw colsRaw sqrtm g d1 dx) 100
        ⟨xi, 0, none⟩ with
    | error e => simp [hloop, Except.map]
    | ok p => simp [hloop, Except.map]

/-- Exact representation `(num, den)` of a rational, used to state concrete
evaluations componentwise (the pair determines the rational uniquely). -/
def ratPair (q : ℚ) : ℤ × ℕ := (q.num, q.den)

set_option maxRecDepth 100000 in
/-- C1 counterexample input: one retained eigenvalue `1e15`, unit mass,
zero gradient, `d1 = [1/10]`, `dx = 1/10`.  The unshifted step is `[0]` and
the mass-weighted norm of `d1 + eps` is exactly `dx` (so `≤ dx` holds), yet
the solver does not return the unshifted step: it enters the shift loop and
returns the step `[-1/10000000000000010]` marked `bound_clip = True` with
`xi = 1`. -/
theorem rs_newton_unshifted_iff_cex :
    (unshiftedMag (mkNewtonCtx [1000000000000000] [[1]] [1] [0]
        [1 / 10] (1 / 10)) ≤ 1 / 10)
    ∧ (divV (unshiftedEpsMw (mkNewtonCtx [1000000000000000] [[1]] [1] [0]
        [1 / 10] (1 / 10))) [1]).map ratPair = [(0, 1)]
    ∧ (rs_newton_irc [1000000000000000] [[1]] [1] [0] [1 / 10] (1 / 10) 1).map
        (fun p => (p.1.map ratPair, ratPair p.2.1, p.2.2)) =
      .ok ([(-1, 10000000000000010)], (1, 1), true) := by
  refine ⟨?_, ?_, ?_⟩
  · with_unfolding_all decide
  · with_unfolding_all decide
  · with_unfolding_all decide

theorem mkNewtonCtx_dx (Lraw : List ℚ) (colsRaw : List Vec) (sqrtm g d1 : Vec)
    (dx : ℚ) : (mkNewtonCtx Lraw colsRaw sqrtm g d1 dx).dx = dx := rfl

theorem mkNewtonCtx_d1mw (Lraw : List ℚ) (colsRaw : List Vec) (sqrtm g d1 : Vec)
    (dx : ℚ) : (mkNewtonCtx Lraw colsRaw sqrtm g d1 dx).d1mw = mulV d1 sqrtm := rfl

/-- C2: whenever the unshifted candidate step exceeds the bound `dx` (and
the call is made with a positive warm-start multiplier and nonzero mass
factors, as every caller does), a successful return of `rs_newton_irc` is
marked `bound_clip = True`, carries `xi ≥ 0`, returns the shifted-step
formula evaluated at the returned multiplier, and its mass-weighted step
norm satisfies the `1e-14` relative convergence criterion. -/
theorem rs_newton_clip_props (Lraw : List ℚ) (colsRaw : List Vec)
    (sqrtm g d1 : Vec) (dx xi₀ : ℚ) (eps : Vec) (xi' : ℚ) (clip : Bool)
    (hxi : 0 < xi₀)
    (hmag : dx < unshiftedMag (mkNewtonCtx Lraw colsRaw sqrtm g d1 dx))
    (hm : ∀ s ∈ sqrtm, s ≠ 0)
    (hres : rs_newton_irc Lraw colsRaw sqrtm g d1 dx xi₀ = .ok (eps, xi', clip)) :
    clip = true ∧ 0 ≤ xi' ∧
      eps = divV (shiftedEpsMw (mkNewtonCtx Lraw colsRaw sqrtm g d1 dx) xi') sqrtm ∧
      |ratNorm (mulV (addV d1 eps) sqrtm) - dx| < tolConv * dx := by
  unfold rs_newton_irc at hres
  rw [if_neg (not_lt.mpr (le_of_lt hmag))] at hres
  cases hloop : newtonLoop (mkNewtonCtx Lraw colsRaw sqrtm g d1 dx) 100
      ⟨xi₀, 0, none⟩ with
  | error e => rw [hloop] at hres; simp [Except.map] at hres
  | ok p =>
    obtain ⟨pe, pxi⟩ := p
    rw [hloop] at hres
    simp only [Except.map, Except.ok.injEq, Prod.mk.injEq] at hres
    obtain ⟨h1, h2, h3⟩ := hres
    have hinv : NInv ⟨xi₀, 0, none⟩ := ⟨le_refl 0, hxi, by simp⟩
    obtain ⟨hp1, hp2, hp3⟩ :=
      newtonLoop_ok (mkNewtonCtx Lraw colsRaw sqrtm g d1 dx) pe pxi 100
        ⟨xi₀, 0, none⟩ hinv hloop
    subst h2
    refine ⟨h3.symm, le_of_lt hp1, by rw [← h1, hp2], ?_⟩
    have hrw : mulV (addV d1 eps) sqrtm = addV (mulV d1 sqrtm) pe := by
      rw [← h1]
      exact mulV_addV_divV d1 pe sqrtm hm
    rw [hrw]
    have := hp3
    rw [mkNewtonCtx_dx] at this
    unfold d2magAt d2mwAt at this
    rw [mkNewtonCtx_d1mw] at this
    rw [hp2]
    exact this

/-- C2 witness: one retained eigenvalue `1`, unit mass, zero gradient,
`d1 = [1/5]`, `dx = 1/10`, warm start `xi = 1`.  The unshifted step is `0`
with norm `1/5 > dx`, and the solver returns `eps = [-1/10]`, `xi = 1`,
`bound_clip = True`, with `‖d1 + eps‖ = 1/10 = dx` exactly. -/
theorem rs_newton_clip_props_witness :
    (true : Bool) = true ∧ (0 : ℚ) ≤ 1 ∧
      [-(1 / 10 : ℚ)] =
        divV (shiftedEpsMw (mkNewtonCtx [1] [[1]] [1] [0] [1 / 5] (1 / 10)) 1) [1] ∧
      |ratNorm (mulV (addV [1 / 5] [-(1 / 10 : ℚ)]) [1]) - 1 / 10| <
        tolConv * (1 / 10) :=
  rs_newton_clip_props [1] [[1]] [1] [0] [1 / 5] (1 / 10) 1 [-(1 / 10)] 1 true
    (by norm_num)
    (by with_unfolding_all decide)
    (by intro s hs; simp at hs; rw [hs]; norm_num)
    (by with_unfolding_all decide)

/-- C3: with a positive warm-start multiplier, `rs_newton_irc` raises the
`RuntimeError` (modelled as `.error "IRC Newton step failed!"`, its only
failure outcome — no partial result, retry or fallback) exactly when the
unshifted step is not accepted and no iterate of the safeguarded root-find
satisfies the convergence criterion within the 100-iteration budget. -/
theorem rs_newton_error_iff (Lraw : List ℚ) (colsRaw : List Vec)
    (sqrtm g d1 : Vec) (dx xi₀ : ℚ) (hxi : 0 < xi₀) :
    rs_newton_irc Lraw colsRaw sqrtm g d1 dx xi₀ =
        .error "IRC Newton step failed!" ↔
      (¬ unshiftedMag (mkNewtonCtx Lraw colsRaw sqrtm g d1 dx) < dx ∧
        ∀ k < 100, ¬ convAt (mkNewtonCtx Lraw colsRaw sqrtm g d1 dx)
          ((newtonStep (mkNewtonCtx Lraw colsRaw sqrtm g d1 dx))^[k]
            ⟨xi₀, 0, none⟩).xi) := by
  unfold rs_newton_irc
  by_cases h : unshiftedMag (mkNewtonCtx Lraw colsRaw sqrtm g d1 dx) < dx
  · rw [if_pos h]
    exact iff_of_false (by simp) (fun hc => hc.1 h)
  · rw [if_neg h]
    have hinv : NInv ⟨xi₀, 0, none⟩ := ⟨le_refl 0, hxi, by simp⟩
    have hmap : ∀ r : Except String (Vec × ℚ),
        (r.map (fun p => (divV p.1 sqrtm, p.2, true)) =
            .error "IRC Newton step failed!" ↔
          r = .error "IRC Newton step failed!") := by
      intro r
      cases r <;> simp [Except.map]
    exact ((hmap _).trans
      ((newtonLoop_error_iff (mkNewtonCtx Lraw colsRaw sqrtm g d1 dx) 100
          ⟨xi₀, 0, none⟩ hinv).trans (and_iff_right h).symm))

/-- C3 witness: the error characterisation instantiated at the concrete
input of the C2 witness (where the loop converges at its first iterate, so
both sides of the equivalence are false). -/
theorem rs_newton_error_iff_witness :
    rs_newton_irc [1] [[1]] [1] [0] [1 / 5] (1 / 10) 1 =
        .error "IRC Newton step failed!" ↔
      (¬ unshiftedMag (mkNewtonCtx [1] [[1]] [1] [0] [1 / 5] (1 / 10)) < 1 / 10 ∧
        ∀ k < 100, ¬ convAt (mkNewtonCtx [1] [[1]] [1] [0] [1 / 5] (1 / 10))
          ((newtonStep (mkNewtonCtx [1] [[1]] [1] [0] [1 / 5] (1 / 10)))^[k]
            ⟨1, 0, none⟩).xi) :=
  rs_newton_error_iff [1] [[1]] [1] [0] [1 / 5] (1 / 10) 1 (by norm_num)

/-! ## PES state model (sella/peswrapper.py, `BasePES`/`CartPES`)

The energy/gradient oracle (an ASE calculator), the constraint projector
(`sella.constraints`), scipy's `eigh` and the Hessian-update kernel
(`sella.hessian_update.update_H`) are all external to this repository and
are supplied as an `Oracles` record of pure functions of the current
geometry; the trajectory writer is a side effect with no model state. -/

/-- One evaluation record, the dict `dict(x=..., f=..., g=...)` of
`BasePES._update` plus the `gfree`/`h` entries added by
`CartPES._update`. -/
structure EvalRec where
  x : Option Vec
  f : Option ℚ
  g : Option Vec
  gfree : Option Vec
  h : Option Vec
deriving DecidableEq

/-- The mutable state of a `CartPES` object: geometry, the two most recent
evaluation records, the evaluation counter, and the Hessian with its
eigen-derived caches. -/
structure PESState where
  positions : Vec
  last : EvalRec
  lastlast : EvalRec
  neval : ℕ
  H : Option Mat
  Hred : Option Mat
  lams : Option (List ℚ)
  vecs : Option Mat
deriving DecidableEq

/-- The external collaborators of the PES state, as pure functions. -/
structure Oracles where
  energy : Vec → ℚ
  grad : Vec → Vec
  ufree : Vec → Mat
  drdx : Vec → Mat
  ucons : Vec → Mat
  eigh : Mat → List ℚ × Mat
  updH : Option Mat → Vec → Vec → Mat

/-- `CartPES.x` setter (lines 194-196): a plain position assignment (the
reshape is a no-op on the raveled vector). -/
def setX (st : PESState) (v : Vec) : PESState := { st with positions := v }

/-- `BasePES._update` (lines 55-68): if the geometry is bit-for-bit equal
to the last record's position, do nothing and report `False`; otherwise
evaluate the oracle, shift `last` to `lastlast`, store a fresh record, and
bump the evaluation counter. -/
def basePESUpdate (o : Oracles) (st : PESState) : PESState × Bool :=
  let x := st.positions
  if st.last.x = some x then (st, false)
  else
    let g := o.grad x
    let f := o.energy x
    ({ st with
        lastlast := st.last
        last := { x := some x, f := some f, g := some g, gfree := none, h := none }
        neval := st.neval + 1 }, true)

/-- `CartPES._update` (lines 179-188): run the base update, and on a fresh
evaluation add the projected gradient `gfree = Ufreeᵀ g` and the
constraint-corrected gradient `h = g - (drdx Uconsᵀ) g` to the record. -/
def cartUpdate (o : Oracles) (st : PESState) : PESState × Bool :=
  match basePESUpdate o st with
  | (st', false) => (st', false)
  | (st', true) =>
    let g := st'.last.g.getD []
    let gfree := matVecM (transposeM (o.ufree st'.positions)) g
    let hvec := subV g (matVecM (matMulM (o.drdx st'.positions)
      (transposeM (o.ucons st'.positions))) g)
    ({ st' with last := { st'.last with gfree := some gfree, h := some hvec } },
      true)

/-- The `f` property (lines 86-89): memoised read of the energy. -/
def getF (o : Oracles) (st : PESState) : PESState × Option ℚ :=
  let p := cartUpdate o st
  (p.1, p.1.last.f)

/-- The `g` property of `CartPES` (lines 198-201): memoised read of the
gradient. -/
def getG (o : Oracles) (st : PESState) : PESState × Option Vec :=
  let p := cartUpdate o st
  (p.1, p.1.last.g)

/-- The `H` setter (lines 43-53): `None` clears the Hessian and all
eigen-derived caches; a matrix is stored together with the eagerly
recomputed `Hred = Ufreeᵀ H Ufree` and its eigendecomposition. -/
def setH (o : Oracles) (st : PESState) (target : Option Mat) : PESState :=
  match target with
  | none => { st with H := none, Hred := none, lams := none, vecs := none }
  | some M =>
    let U := o.ufree st.positions
    let Hred := matMulM (matMulM (transposeM U) M) U
    let ev := o.eigh Hred
    { st with H := some M, Hred := some Hred, lams := some ev.1, vecs := some ev.2 }

/-- `CartPES.update_H` (lines 233-238): no-op while only one evaluation
record exists; otherwise apply the external secant-update kernel to the
displacement and gradient change between the two records (reading `self.g`
first, which may refresh the records) and assign the result through the
`H` setter. -/
def cartUpdateH (o : Oracles) (st : PESState) : PESState :=
  match st.lastlast.x with
  | none => st
  | some xll =>
    let dxv := subV st.positions xll
    let st' := (cartUpdate o st).1
    let dgv := subV (st'.last.g.getD []) (st'.lastlast.g.getD [])
    setH o st' (some (o.updH st'.H dxv dgv))

/-- `BasePES.diag` (lines 138-164): save the two evaluation records, run
the probing body (finite-difference Hessian actions, the external
Rayleigh–Ritz eigensolver, and the Hessian merge — all built from external
kernels, so abstracted as a state transformer that either finishes or
raises partway with its mutations in place), then write the saved records
back.  The source has no `try`/`finally`: the restore of lines 163-164 runs
only on normal exit, and an exception propagates with the probing records
still in place. -/
def diagRun (st : PESState) (body : PESState → PESState × Option String) :
    Except (String × PESState) PESState :=
  let lastlast := st.lastlast
  let last := st.last
  match body st with
  | (st', none) => .ok { st' with lastlast := lastlast, last := last }
  | (st', some e) => .error (e, st')

/-- A concrete one-dimensional oracle set used by witness evaluations. -/
def oracleC : Oracles where
  energy := fun _ => 0
  grad := fun _ => [1]
  ufree := fun _ => [[1]]
  drdx := fun _ => [[0]]
  ucons := fun _ => [[0]]
  eigh := fun A => ([(A.headD []).headD 0], [[1]])
  updH := fun _ _ _ => [[1]]

/-- A concrete PES state whose last record matches the current geometry. -/
def pesC : PESState where
  positions := [0]
  last := { x := some [0], f := some 1, g := some [2], gfree := some [2], h := some [2] }
  lastlast := { x := none, f := none, g := none, gfree := none, h := none }
  neval := 1
  H := none
  Hred := none
  lams := none
  vecs := none

/-- C6: setting `x` to its current value and then reading `f` or `g` is a
no-op on a state whose last record holds the current geometry (no new
record, `lastlast` untouched, `neval` not incremented); and an update
replaces the records only when the position differs bit-for-bit from the
last record. -/
theorem pes_update_idempotent :
    (∀ (o : Oracles) (st : PESState), st.last.x = some st.positions →
        setX st st.positions = st ∧ cartUpdate o (setX st st.positions) = (st, false) ∧
        getF o (setX st st.positions) = (st, st.last.f) ∧
        getG o (setX st st.positions) = (st, st.last.g)) ∧
    (∀ (o : Oracles) (st st' : PESState),
        cartUpdate o st = (st', true) → st.last.x ≠ some st.positions) ∧
    (∀ (o : Oracles) (st st' : PESState),
        cartUpdate o st = (st', false) → st' = st) := by
  have hbase : ∀ (o : Oracles) (st : PESState), st.last.x = some st.positions →
      cartUpdate o st = (st, false) := by
    intro o st hx
    unfold cartUpdate basePESUpdate
    rw [if_pos hx]
  refine ⟨?_, ?_, ?_⟩
  · intro o st hx
    have hset : setX st st.positions = st := rfl
    rw [hset]
    exact ⟨rfl, hbase o st hx, by unfold getF; rw [hbase o st hx],
      by unfold getG; rw [hbase o st hx]⟩
  · intro o st st' hres hx
    rw [hbase o st hx] at hres
    exact absurd (congrArg Prod.snd hres) (by simp)
  · intro o st st' hres
    unfold cartUpdate basePESUpdate at hres
    by_cases hx : st.last.x = some st.positions
    · rw [if_pos hx] at hres
      exact (congrArg Prod.fst hres).symm
    · rw [if_neg hx] at hres
      exact absurd (congrArg Prod.snd hres) (by simp)

/-- C6 witness: the no-op behaviour at a concrete state whose last record
holds the current geometry. -/
theorem pes_update_idempotent_witness :
    setX pesC pesC.positions = pesC ∧
      cartUpdate oracleC (setX pesC pesC.positions) = (pesC, false) ∧
      getF oracleC (setX pesC pesC.positions) = (pesC, pesC.last.f) ∧
      getG oracleC (setX pesC pesC.positions) = (pesC, pesC.last.g) :=
  pes_update_idempotent.1 oracleC pesC (by decide)

/-- For a `(· ≤ ·)`-sorted list the head is a lower bound. -/
theorem sorted_head_le {l : List ℚ} (hs : l.Sorted (· ≤ ·)) :
    ∀ a ∈ l, ∀ h0 : l ≠ [], l.head h0 ≤ a := by
  cases l with
  | nil => intro a ha; cases ha
  | cons b t =>
    rw [List.sorted_cons] at hs
    intro a ha h0
    rcases List.mem_cons.mp ha with h | h
    · rw [h]; exact le_refl _
    · exact hs.1 a h

/-- C7: assigning `None` to `H` clears the Hessian together with `Hred`,
`lams` and `vecs`; assigning a matrix stores it and eagerly recomputes
`Hred = Ufreeᵀ H Ufree` and its full eigendecomposition, and — under the
external `eigh` contract that eigenvalues come back ascending — `lams` is
ascending with `lams[0]` a lower bound (the softest mode). -/
theorem pes_setH_spec (o : Oracles) (st : PESState) :
    ((setH o st none).H = none ∧ (setH o st none).Hred = none ∧
      (setH o st none).lams = none ∧ (setH o st none).vecs = none) ∧
    ∀ M : Mat,
      (setH o st (some M)).H = some M ∧
      (setH o st (some M)).Hred = some (matMulM (matMulM
        (transposeM (o.ufree st.positions)) M) (o.ufree st.positions)) ∧
      (setH o st (some M)).lams = some (o.eigh (matMulM (matMulM
        (transposeM (o.ufree st.positions)) M) (o.ufree st.positions))).1 ∧
      (setH o st (some M)).vecs = some (o.eigh (matMulM (matMulM
        (transposeM (o.ufree st.positions)) M) (o.ufree st.positions))).2 ∧
      ((∀ A, ((o.eigh A).1).Sorted (· ≤ ·)) →
        ∀ l, (setH o st (some M)).lams = some l →
          l.Sorted (· ≤ ·) ∧ ∀ a ∈ l, ∀ h0 : l ≠ [], l.head h0 ≤ a) := by
  refine ⟨⟨rfl, rfl, rfl, rfl⟩, ?_⟩
  intro M
  refine ⟨rfl, rfl, rfl, rfl, ?_⟩
  intro hsorted l hl
  have : l = (o.eigh (matMulM (matMulM
      (transposeM (o.ufree st.positions)) M) (o.ufree st.positions))).1 := by
    have hlam : (setH o st (some M)).lams = some (o.eigh (matMulM (matMulM
        (transposeM (o.ufree st.positions)) M) (o.ufree st.positions))).1 := rfl
    rw [hlam] at hl
    exact (Option.some.inj hl).symm
  subst this
  exact ⟨hsorted _, sorted_head_le (hsorted _)⟩

/-- C7 witness: the `H` setter specification instantiated at the concrete
one-dimensional oracle (whose `eigh` returns singleton, hence ascending,
eigenvalue lists) and the concrete state. -/
theorem pes_setH_spec_witness :
    (((setH oracleC pesC none).H = none ∧ (setH oracleC pesC none).Hred = none ∧
      (setH oracleC pesC none).lams = none ∧ (setH oracleC pesC none).vecs = none) ∧
    ∀ M : Mat,
      (setH oracleC pesC (some M)).H = some M ∧
      (setH oracleC pesC (some M)).Hred = some (matMulM (matMulM
        (transposeM (oracleC.ufree pesC.positions)) M) (oracleC.ufree pesC.positions)) ∧
      (setH oracleC pesC (some M)).lams = some (oracleC.eigh (matMulM (matMulM
        (transposeM (oracleC.ufree pesC.positions)) M) (oracleC.ufree pesC.positions))).1 ∧
      (setH oracleC pesC (some M)).vecs = some (oracleC.eigh (matMulM (matMulM
        (transposeM (oracleC.ufree pesC.positions)) M) (oracleC.ufree pesC.positions))).2 ∧
      ((∀ A, ((oracleC.eigh A).1).Sorted (· ≤ ·)) →
        ∀ l, (setH oracleC pesC (some M)).lams = some l →
          l.Sorted (· ≤ ·) ∧ ∀ a ∈ l, ∀ h0 : l ≠ [], l.head h0 ≤ a)) :=
  pes_setH_spec oracleC pesC

/-- C10: while only one evaluation record exists (`lastlast['x'] is None`),
`CartPES.update_H` returns without touching the state at all: the secant
update needs two distinct records. -/
theorem pes_updateH_single_record (o : Oracles) (st : PESState)
    (h : st.lastlast.x = none) : cartUpdateH o st = st := by
  unfold cartUpdateH
  rw [h]

/-- C10 witness: the no-op at the concrete single-record state. -/
theorem pes_updateH_single_record_witness : cartUpdateH oracleC pesC = pesC :=
  pes_updateH_single_record oracleC pesC (by decide)

/-- C8 (amended): `diag` restores `last`/`lastlast` to their exact pre-call
values on NORMAL exit from the probing phase — but only then; the source
has no `try`/`finally`, so an exceptional exit skips the restore (see the
counterexample). -/
theorem diag_restores_on_normal_exit (st st' : PESState)
    (body : PESState → PESState × Option String)
    (hok : body st = (st', none)) :
    diagRun st body = .ok { st' with lastlast := st.lastlast, last := st.last } ∧
      ∀ r, diagRun st body = .ok r → r.last = st.last ∧ r.lastlast = st.lastlast := by
  have h1 : diagRun st body = .ok { st' with lastlast := st.lastlast, last := st.last } := by
    unfold diagRun
    rw [hok]
  refine ⟨h1, ?_⟩
  intro r hr
  rw [h1] at hr
  have := Except.ok.inj hr
  rw [← this]
  exact ⟨rfl, rfl⟩

/-- A probing body that mutates the evaluation records and then raises
(modelling an oracle failure during the finite-difference probes). -/
def bodyCexa (s : PESState) : PESState × Option String :=
  ({ s with
      lastlast := s.last
      last := { x := some [5], f := some 99, g := some [7], gfree := none, h := none } },
    some "oracle evaluation failed")

/-- C8 counterexample: on exceptional exit from the probing phase the
records are NOT restored — the state attached to the propagated error still
carries the probing record (`f = 99`), not the pre-call record
(`f = 1`). -/
theorem diag_restores_cex :
    diagRun pesC bodyCexa =
      .error ("oracle evaluation failed",
        { pesC with
            lastlast := pesC.last
            last := { x := some [5], f := some 99, g := some [7],
                      gfree := none, h := none } }) ∧
    (bodyCexa pesC).1.last ≠ pesC.last := by
  refine ⟨rfl, by decide⟩

/-- A probing body that mutates the evaluation records and finishes
normally. -/
def bodyOkC (s : PESState) : PESState × Option String :=
  ({ s with
      last := { x := some [9], f := some 3, g := some [4],
                gfree := none, h := none } }, none)

/-- C8 witness: the normal-exit restoration applied to a concrete body that
mutates the records and finishes normally. -/
theorem diag_restores_on_normal_exit_witness :
    diagRun pesC bodyOkC =
      .ok { (bodyOkC pesC).1 with lastlast := pesC.lastlast, last := pesC.last } :=
  (diag_restores_on_normal_exit pesC (bodyOkC pesC).1 bodyOkC rfl).1

/-! ## IRC driver (sella/irc.py, class `IRC`)

`Optimizer.irun` (the generic ASE driver that repeatedly calls `step`) is
external; `irunSeed` models `IRC.irun` up to the hand-off to it, returning
the seeded state that stepping would start from.  The initial
diagonalisation branch (lines 125-131: `pes.diag`, a mass-weighted `eigh`
and the snapshot of `H0`/`peslast`) is built entirely from external
kernels and is abstracted as a state transformer `initDiag`. -/

/-- The `IRC` driver state: the wrapped PES plus the anchor snapshot
(`x0`, `v0ts`, `H0`, `peslast`) and the stepping state (`d1`, `xi`,
`first`). -/
structure IRCDriverState where
  pes : PESState
  x0 : Vec
  v0ts : Option Vec
  H0 : Option Mat
  peslast : EvalRec
  d1 : Vec
  xi : ℚ
  first : Bool
deriving DecidableEq

/-- Lines 124-136 of `IRC.irun`: first call runs the initial
diagonalisation (abstracted); later calls restore the anchor state
(`pes.x = x0`, `pes.H = H0`, `pes.last = peslast`). -/
def irunBranch (o : Oracles) (st : IRCDriverState)
    (initDiag : IRCDriverState → IRCDriverState) : IRCDriverState :=
  match st.v0ts with
  | none => initDiag st
  | some _ =>
    { st with pes := { setH o (setX st.pes st.x0) st.H0 with last := st.peslast } }

/-- `IRC.irun` (lines 119-144) up to the hand-off to the external
`Optimizer.irun` stepping loop: validate the direction token first (any
other value raises `ValueError` before anything else happens), then run
the per-direction branch, seed `d1 = ±v0ts`, and set the `first` flag. -/
def irunSeed (o : Oracles) (direction : String) (st : IRCDriverState)
    (initDiag : IRCDriverState → IRCDriverState) : Except String IRCDriverState :=
  if ¬ (direction = "forward" ∨ direction = "reverse") then
    .error "direction must be one of \"forward\" or \"reverse\"!"
  else
    let st1 := irunBranch o st initDiag
    let d1 :=
      if direction = "forward" then st1.v0ts.getD []
      else negV (st1.v0ts.getD [])
    .ok { st1 with d1 := d1, first := true }

/-- C4: a direction other than `"forward"`/`"reverse"` fails immediately
with the `ValueError` message, before any state is touched and without
proceeding to stepping; `"forward"` seeds `d1 = +v0ts` and `"reverse"`
seeds `d1 = -v0ts` (both on the state produced by the
initialise-or-restore branch), with the `first` flag set. -/
theorem irun_direction_spec :
    (∀ (o : Oracles) (d : String) (st : IRCDriverState)
        (f : IRCDriverState → IRCDriverState),
        d ≠ "forward" → d ≠ "reverse" →
        irunSeed o d st f =
          .error "direction must be one of \"forward\" or \"reverse\"!") ∧
    (∀ (o : Oracles) (st : IRCDriverState) (f : IRCDriverState → IRCDriverState),
        irunSeed o "forward" st f =
          .ok { irunBranch o st f with
                d1 := (irunBranch o st f).v0ts.getD [], first := true }) ∧
    (∀ (o : Oracles) (st : IRCDriverState) (f : IRCDriverState → IRCDriverState),
        irunSeed o "reverse" st f =
          .ok { irunBranch o st f with
                d1 := negV ((irunBranch o st f).v0ts.getD []), first := true }) := by
  refine ⟨?_, ?_, ?_⟩
  · intro o d st f h1 h2
    unfold irunSeed
    rw [if_pos]
    rintro (hc | hc)
    · exact h1 hc
    · exact h2 hc
  · intro o st f
    unfold irunSeed
    rw [if_neg (by simp)]
    rfl
  · intro o st f
    unfold irunSeed
    rw [if_neg (by simp)]
    rfl

/-- A concrete driver state for witness evaluations. -/
def ircC : IRCDriverState where
  pes := pesC
  x0 := [0]
  v0ts := some [1 / 10]
  H0 := some [[1]]
  peslast := pesC.last
  d1 := [1 / 10]
  xi := 1
  first := false

/-- C4 witness: calling the driver with direction `"sideways"` fails with
the configuration error. -/
theorem irun_direction_spec_witness :
    irunSeed oracleC "sideways" ircC (fun s => s) =
      .error "direction must be one of \"forward\" or \"reverse\"!" :=
  irun_direction_spec.1 oracleC "sideways" ircC (fun s => s)
    (by decide) (by decide)

/-- Lines 12-16 of `rs_newton_irc`: build the mass-weighted Hessian from
the PES state's reduced eigenpairs and hand it to the external `eigh`
before running the filtered solve.  (`eigh` returns eigenvectors as matrix
columns, hence the transpose to a column list.) -/
def rs_newton_pes (o : Oracles) (pes : PESState) (sqrtm g d1 : Vec)
    (dx xi : ℚ) : Except String (Vec × ℚ × Bool) :=
  let Lcart := pes.lams.getD []
  let vecscart := matMulM (o.ufree pes.positions) (pes.vecs.getD [])
  let Hmw := elemDivM (matMulM (matMulM vecscart (diagM Lcart))
    (transposeM vecscart)) (outerM sqrtm sqrtm)
  let ev := o.eigh Hmw
  rs_newton_irc ev.1 (transposeM ev.2) sqrtm g d1 dx xi

/-- The fixed per-run context of `IRC.step`. -/
structure StepCtx where
  o : Oracles
  sqrtm : Vec
  dx : ℚ
  irctol : ℚ

/-- Lines 165-167 of the inner loop: move the PES to `x0 + d1`, read the
fresh gradient, and run the Hessian update. -/
def stepAdvance (c : StepCtx) (x0 : Vec) (st1 : IRCDriverState) :
    IRCDriverState × Vec :=
  let pes1 := setX st1.pes (addV x0 st1.d1)
  let pes2 := (cartUpdate c.o pes1).1
  let g2 := pes2.last.g.getD []
  let pes3 := cartUpdateH c.o pes2
  ({ st1 with pes := pes3 }, g2)

/-- Lines 169-173: the alignment measure
`|normalized(d1·√m) · normalized((Pfree g)/√m)|`. -/
def alignedDot (c : StepCtx) (Pfree : Mat) (d1 g2 : Vec) : ℚ :=
  let d1m0 := mulV d1 c.sqrtm
  let d1m := d1m0.map (· / ratNorm d1m0)
  let g1m0 := divV (matVecM Pfree g2) c.sqrtm
  let g1m := g1m0.map (· / ratNorm g1m0)
  |dotV d1m g1m|

/-- Lines 179-181: the steepest-descent seed for the next step. -/
def postD1 (c : StepCtx) (g2 : Vec) : Vec :=
  let g1w := divV g2 c.sqrtm
  let d1w := g1w.map (fun t => -c.dx * (t / ratNorm g1w))
  divV d1w c.sqrtm

/-- The inner loop of `IRC.step` (lines 155-177), with the 100-iteration
budget as fuel.  Alongside the stepped state it returns a ghost trace, one
entry per executed inner iteration: the first component records whether
`rs_newton_irc` was invoked in that iteration, the second the `bound_clip`
flag of the step taken (`none` when the solver raised before producing
one).  The first (`self.first`) branch of the source also computes an
unused local `epsnorm`; it has no effect and is omitted. -/
def stepLoop (c : StepCtx) (x0 : Vec) (Pfree : Mat) :
    ℕ → IRCDriverState → Vec → List (Bool × Option Bool) →
    Except String IRCDriverState × List (Bool × Option Bool)
  | 0, _, _, tr => (.error "Inner IRC loop failed to converge", tr)
  | fuel + 1, st, g1, tr =>
    match (if st.first then
            Except.ok ({ st with first := false }, true,
              ((false, some true) : Bool × Option Bool))
          else
            match rs_newton_pes c.o st.pes c.sqrtm g1 st.d1 c.dx st.xi with
            | .error e => .error e
            | .ok (eps, xi1, clip) =>
              .ok ({ st with d1 := addV st.d1 eps, xi := xi1 }, clip,
                ((true, some clip) : Bool × Option Bool))) with
    | .error e => (.error e, tr ++ [(true, none)])
    | .ok (st1, clip, entry) =>
      let p := stepAdvance c x0 st1
      if clip = true ∧ |1 - alignedDot c Pfree p.1.d1 p.2| < c.irctol then
        (.ok { p.1 with d1 := postD1 c p.2 }, tr ++ [entry])
      else stepLoop c x0 Pfree fuel p.1 p.2 (tr ++ [entry])

/-- `IRC.step` (lines 151-181): snapshot `x0` and the free-space projector,
read the memoised gradient, and run the inner loop under the 100-iteration
budget (exceeding it raises `RuntimeError`). -/
def stepRun (c : StepCtx) (st : IRCDriverState) :
    Except String IRCDriverState × List (Bool × Option Bool) :=
  let x0 := st.pes.positions
  let U := c.o.ufree st.pes.positions
  let Pfree := matMulM U (transposeM U)
  stepLoop c x0 Pfree 100 st (st.pes.last.g.getD []) []

theorem stepAdvance_first (c : StepCtx) (x0 : Vec) (st1 : IRCDriverState) :
    (stepAdvance c x0 st1).1.first = st1.first := rfl

/-- Every inner iteration executed with the `first` flag already cleared
invokes the Newton solver: the trace grows only by Newton-marked entries,
and at least one iteration runs when fuel remains. -/
theorem stepLoop_first_false (c : StepCtx) (x0 : Vec) (P : Mat) :
    ∀ fuel (st : IRCDriverState) (g1 : Vec) (tr : List (Bool × Option Bool)),
      st.first = false →
      ∃ r rest, stepLoop c x0 P fuel st g1 tr = (r, tr ++ rest) ∧
        (∀ e ∈ rest, e.1 = true) ∧ (fuel ≠ 0 → rest ≠ []) := by
  intro fuel
  induction fuel with
  | zero =>
    intro st g1 tr hf
    exact ⟨.error "Inner IRC loop failed to converge", [],
      by simp [stepLoop], by simp, by simp⟩
  | succ f ih =>
    rintro ⟨pes, sx0, v0, sH0, plast, d1, xi, first⟩ g1 tr hf
    dsimp only at hf
    subst hf
    rw [stepLoop]
    simp only [Bool.false_eq_true, if_false]
    cases hN : rs_newton_pes c.o pes c.sqrtm g1 d1 c.dx xi with
    | error e =>
      exact ⟨.error e, [(true, none)], rfl, by simp, by simp⟩
    | ok trip =>
      obtain ⟨eps, xi1, clip⟩ := trip
      by_cases hbreak : clip = true ∧
          |1 - alignedDot c P
            (stepAdvance c x0 ⟨pes, sx0, v0, sH0, plast, addV d1 eps, xi1, false⟩).1.d1
            (stepAdvance c x0 ⟨pes, sx0, v0, sH0, plast, addV d1 eps, xi1, false⟩).2|
            < c.irctol
      · refine ⟨.ok { (stepAdvance c x0
            ⟨pes, sx0, v0, sH0, plast, addV d1 eps, xi1, false⟩).1 with
            d1 := postD1 c (stepAdvance c x0
              ⟨pes, sx0, v0, sH0, plast, addV d1 eps, xi1, false⟩).2 },
          [(true, some clip)], ?_, by simp, by simp⟩
        dsimp only
        rw [if_pos hbreak]
      · have hst2 : (stepAdvance c x0
            ⟨pes, sx0, v0, sH0, plast, addV d1 eps, xi1, false⟩).1.first = false := rfl
        obtain ⟨r, rest, heq, hall, _⟩ :=
          ih (stepAdvance c x0 ⟨pes, sx0, v0, sH0, plast, addV d1 eps, xi1, false⟩).1
            (stepAdvance c x0 ⟨pes, sx0, v0, sH0, plast, addV d1 eps, xi1, false⟩).2
            (tr ++ [(true, some clip)]) hst2
        refine ⟨r, (true, some clip) :: rest, ?_, ?_, by simp⟩
        · dsimp only
          rw [if_neg hbreak, heq]
          simp
        · intro e he
          rcases List.mem_cons.mp he with h | h
          · rw [h]
          · exact hall e h

/-- C5 (amended): on a `step` call with the `first` flag set (the first
step after `irun`), the first inner iteration takes the trivial step
without invoking the Newton solver and is marked bound-clipped, and every
subsequent inner iteration of that step invokes the solver; on a `step`
call with the flag already cleared (every later step of the run), the
Newton solver is invoked from the very first inner iteration on. -/
theorem step_first_trace :
    (∀ (c : StepCtx) (st : IRCDriverState), st.first = true →
        (stepRun c st).2.head? = some (false, some true) ∧
        ∀ e ∈ (stepRun c st).2.tail, e.1 = true) ∧
    (∀ (c : StepCtx) (st : IRCDriverState), st.first = false →
        (stepRun c st).2.head?.map Prod.fst = some true ∧
        ∀ e ∈ (stepRun c st).2, e.1 = true) := by
  constructor
  · rintro c ⟨pes, sx0, v0, sH0, plast, d1, xi, first⟩ hf
    dsimp only at hf
    subst hf
    unfold stepRun
    rw [show (100 : ℕ) = 99 + 1 from rfl, stepLoop]
    simp only [if_true]
    by_cases hdot : |1 - alignedDot c (matMulM (c.o.ufree pes.positions)
            (transposeM (c.o.ufree pes.positions)))
          (stepAdvance c pes.positions
            ⟨pes, sx0, v0, sH0, plast, d1, xi, false⟩).1.d1
          (stepAdvance c pes.positions
            ⟨pes, sx0, v0, sH0, plast, d1, xi, false⟩).2| < c.irctol
    · dsimp only
      rw [if_pos (⟨trivial, hdot⟩ : True ∧ _)]
      exact ⟨rfl, by simp⟩
    · dsimp only
      rw [if_neg (fun hc => hdot hc.2)]
      obtain ⟨r, rest, heq, hall, _⟩ :=
        stepLoop_first_false c pes.positions
          (matMulM (c.o.ufree pes.positions) (transposeM (c.o.ufree pes.positions)))
          99
          (stepAdvance c pes.positions
            ⟨pes, sx0, v0, sH0, plast, d1, xi, false⟩).1
          (stepAdvance c pes.positions
            ⟨pes, sx0, v0, sH0, plast, d1, xi, false⟩).2
          ([] ++ [(false, some true)]) rfl
      rw [heq]
      exact ⟨rfl, by simpa using hall⟩
  · rintro c ⟨pes, sx0, v0, sH0, plast, d1, xi, first⟩ hf
    dsimp only at hf
    subst hf
    unfold stepRun
    obtain ⟨r, rest, heq, hall, hne⟩ :=
      stepLoop_first_false c pes.positions
        (matMulM (c.o.ufree pes.positions) (transposeM (c.o.ufree pes.positions)))
        100 ⟨pes, sx0, v0, sH0, plast, d1, xi, false⟩
        (pes.last.g.getD []) [] rfl
    rw [heq]
    cases hrest : rest with
    | nil => exact absurd hrest (hne (by norm_num))
    | cons e rest2 =>
      subst hrest
      refine ⟨?_, by simpa using hall⟩
      have he : e.1 = true := hall e (List.mem_cons_self e rest2)
      simp [he]

/-- A concrete PES state after one evaluation, for the `step` runs. -/
def pesC5 : PESState where
  positions := [0]
  last := { x := some [0], f := some 0, g := some [0], gfree := some [0], h := some [0] }
  lastlast := { x := none, f := none, g := none, gfree := none, h := none }
  neval := 1
  H := some [[1]]
  Hred := some [[1]]
  lams := some [1]
  vecs := some [[1]]

/-- A concrete driver state for a second (or later) `step` call: the
`first` flag has already been cleared by the first step after `irun`. -/
def stC5 : IRCDriverState where
  pes := pesC5
  x0 := [0]
  v0ts := some [1 / 10]
  H0 := some [[1]]
  peslast := pesC5.last
  d1 := [1 / 5]
  xi := 1
  first := false

/-- A concrete step context with unit mass and a permissive alignment
tolerance. -/
def ctxC5 : StepCtx where
  o := oracleC
  sqrtm := [1]
  dx := 1 / 10
  irctol := 2

/-- C5 counterexample: a `step` call whose `first` flag is cleared (true of
every step after the first one of a direction, since `irun` is the only
place the flag is set).  Its inner-iteration trace is `[(true, some true)]`:
the very first inner iteration already invoked `rs_newton_irc`, so it did
not take the trivial full-`d1` step the claim promises for every `step`
call. -/
theorem step_first_trace_cex :
    stC5.first = false ∧ (stepRun ctxC5 stC5).2 = [(true, some true)] :=
  ⟨rfl, by with_unfolding_all decide⟩

/-- C5 witness: a `step` call with the `first` flag set takes the trivial,
bound-clipped, solver-free first inner iteration. -/
theorem step_first_trace_witness :
    (stepRun ctxC5 { stC5 with first := true }).2.head? = some (false, some true) :=
  (step_first_trace.1 ctxC5 { stC5 with first := true } rfl).1

/-! ## Curvilinear retraction (sella/peswrapper.py, `IntPES.x` setter)

The LSODA integrator is external (scipy); it is modelled by the sequence
of states observed after successive `ode.step()` calls: `init` is the
freshly constructed object (status `running`) and `trace` lists the states
after each step.  A trace that runs out while still `running` is a model
artefact (the Python loop would simply keep stepping) and surfaces as a
distinguished error that no claim is about. -/

/-- The observable status of the scipy integrator. -/
inductive OdeStatus
  | running
  | finished
  | failed
deriving DecidableEq

/-- The observable state of the integrator after a step. -/
structure OdeState where
  status : OdeStatus
  nfev : ℕ
  y : Vec
deriving DecidableEq

/-- The `IntPES.x` setter loop (lines 288-304): while the integrator is
`running`, take a step and raise if the function-evaluation count exceeds
the budget of 200 (even when that very step finished the integration);
once out of the loop, raise if the integrator reports `failed`, else the
new positions are the first `nx` components of the integrated state. -/
def intSetX (nx : ℕ) : OdeState → List OdeState → Except String Vec
  | st, trace =>
    if st.status = .running then
      match trace with
      | [] => .error "model: integrator produced no further steps"
      | t :: ts =>
        if 200 < t.nfev then
          .error "Geometry update ODE is taking too long to converge!"
        else intSetX nx t ts
    else if st.status = .failed then
      .error "Geometry update ODE failed to converge!"
    else .ok (st.y.take nx)

/-- Whether the walk meets a post-step state with `nfev > 200` before the
integrator leaves the `running` status. -/
def budgetBlown : OdeState → List OdeState → Bool
  | st, trace =>
    if st.status = .running then
      match trace with
      | [] => false
      | t :: ts => if 200 < t.nfev then true else budgetBlown t ts
    else false

/-- The first non-`running` state of the walk, if any. -/
def odeExit : OdeState → List OdeState → Option OdeState
  | st, trace =>
    if st.status = .running then
      match trace with
      | [] => none
      | t :: ts => odeExit t ts
    else some st

/-- C9: the retraction fails exactly when the integrator's
function-evaluation count exceeds the budget of 200 or the integrator
reports `failed`; otherwise the positions are set to (the first `nx`
components of) the integrated geometry. -/
theorem intSetX_spec (nx : ℕ) : ∀ (init : OdeState) (trace : List OdeState),
    (budgetBlown init trace = true →
      intSetX nx init trace =
        .error "Geometry update ODE is taking too long to converge!") ∧
    (budgetBlown init trace = false → ∀ e, odeExit init trace = some e →
      (e.status = .failed →
        intSetX nx init trace = .error "Geometry update ODE failed to converge!") ∧
      (e.status = .finished → intSetX nx init trace = .ok (e.y.take nx))) ∧
    (∀ p, intSetX nx init trace = .ok p →
      budgetBlown init trace = false ∧ ∃ e, odeExit init trace = some e ∧
        e.status = .finished ∧ p = e.y.take nx) := by
  intro init trace
  induction trace generalizing init with
  | nil =>
    by_cases hr : init.status = .running
    · refine ⟨?_, ?_, ?_⟩
      · intro hb
        rw [budgetBlown, if_pos hr] at hb
        cases hb
      · intro _ e he
        rw [odeExit, if_pos hr] at he
        cases he
      · intro p hp
        rw [intSetX, if_pos hr] at hp
        cases hp
    · by_cases hfail : init.status = .failed
      · refine ⟨?_, ?_, ?_⟩
        · intro hb
          rw [budgetBlown, if_neg hr] at hb
          cases hb
        · intro _ e he
          rw [odeExit, if_neg hr] at he
          rw [← Option.some.inj he]
          refine ⟨fun _ => ?_, fun hfin => ?_⟩
          · rw [intSetX, if_neg hr, if_pos hfail]
          · rw [hfail] at hfin
            cases hfin
        · intro p hp
          rw [intSetX, if_neg hr, if_pos hfail] at hp
          cases hp
      · have hfin : init.status = .finished := by
          cases hst : init.status
          · exact absurd hst hr
          · rfl
          · exact absurd hst hfail
        refine ⟨?_, ?_, ?_⟩
        · intro hb
          rw [budgetBlown, if_neg hr] at hb
          cases hb
        · intro _ e he
          rw [odeExit, if_neg hr] at he
          rw [← Option.some.inj he]
          refine ⟨fun hf => ?_, fun _ => ?_⟩
          · rw [hfin] at hf
            cases hf
          · rw [intSetX, if_neg hr, if_neg hfail]
        · intro p hp
          rw [intSetX, if_neg hr, if_neg hfail] at hp
          refine ⟨by rw [budgetBlown, if_neg hr], init, by rw [odeExit, if_neg hr],
            hfin, (Except.ok.inj hp).symm⟩
  | cons t ts ih =>
    by_cases hr : init.status = .running
    · by_cases hbudget : 200 < t.nfev
      · refine ⟨?_, ?_, ?_⟩
        · intro _
          rw [intSetX, if_pos hr]
          simp only [if_pos hbudget]
        · intro hb
          rw [budgetBlown, if_pos hr] at hb
          simp only [if_pos hbudget] at hb
          cases hb
        · intro p hp
          rw [intSetX, if_pos hr] at hp
          simp only [if_pos hbudget] at hp
          cases hp
      · have hbg : budgetBlown init (t :: ts) = budgetBlown t ts := by
          rw [budgetBlown, if_pos hr]
          simp only [if_neg hbudget]
        have hex : odeExit init (t :: ts) = odeExit t ts := by
          rw [odeExit, if_pos hr]
        have hset : intSetX nx init (t :: ts) = intSetX nx t ts := by
          rw [intSetX, if_pos hr]
          simp only [if_neg hbudget]
        rw [hbg, hex, hset]
        exact ih t
    · by_cases hfail : init.status = .failed
      · refine ⟨?_, ?_, ?_⟩
        · intro hb
          rw [budgetBlown, if_neg hr] at hb
          cases hb
        · intro _ e he
          rw [odeExit, if_neg hr] at he
          rw [← Option.some.inj he]
          refine ⟨fun _ => ?_, fun hfin => ?_⟩
          · rw [intSetX, if_neg hr, if_pos hfail]
          · rw [hfail] at hfin
            cases hfin
        · intro p hp
          rw [intSetX, if_neg hr, if_pos hfail] at hp
          cases hp
      · have hfin : init.status = .finished := by
          cases hst : init.status
          · exact absurd hst hr
          · rfl
          · exact absurd hst hfail
        refine ⟨?_, ?_, ?_⟩
        · intro hb
          rw [budgetBlown, if_neg hr] at hb
          cases hb
        · intro _ e he
          rw [odeExit, if_neg hr] at he
          rw [← Option.some.inj he]
          refine ⟨fun hf => ?_, fun _ => ?_⟩
          · rw [hfin] at hf
            cases hf
          · rw [intSetX, if_neg hr, if_neg hfail]
        · intro p hp
          rw [intSetX, if_neg hr, if_neg hfail] at hp
          refine ⟨by rw [budgetBlown, if_neg hr], init, by rw [odeExit, if_neg hr],
            hfin, (Except.ok.inj hp).symm⟩

/-- C9 witness: a run whose integrator finishes after one step within
budget sets the positions to the integrated geometry. -/
theorem intSetX_spec_witness :
    intSetX 3 ⟨OdeStatus.running, 0, []⟩ [⟨OdeStatus.finished, 5, [1, 2, 3, 4]⟩] =
      .ok ((([1, 2, 3, 4] : Vec)).take 3) :=
  ((intSetX_spec 3 ⟨OdeStatus.running, 0, []⟩
      [⟨OdeStatus.finished, 5, [1, 2, 3, 4]⟩]).2.1 (by decide)
    ⟨OdeStatus.finished, 5, [1, 2, 3, 4]⟩ (by decide)).2 rfl
